import Mathlib

/-!
Shallow embedding of the `praw-data-mining` repository (two scripts:
`async_headphone_scraper.py`, the collector, and `nu_eta/visualization.py`,
the analyzer) together with proofs about the embedded definitions.

Machine integers are modelled as `Int`/`Nat`; epoch timestamps as `Int`
seconds.  The external libraries the scripts call (`zoneinfo`, `json`,
file IO) are embedded to the extent the scripts exercise them, from the
observable behaviour of those libraries.
-/

/-! ## Time conversion (`convert_utc_to_vietnam_time`)

The collector converts `created_utc` epoch values with
`datetime.fromtimestamp(ts, tz=UTC).astimezone(ZoneInfo("Asia/Ho_Chi_Minh"))`
and formats with `strftime("%Y-%m-%d %H:%M:%S %Z")`.

The tzdata history of `Asia/Ho_Chi_Minh` (UT instants at which a new
offset starts, from the installed zoneinfo database) is embedded in
`hcmOffsetAbbrev`.  `datetime.fromtimestamp` rejects timestamps whose UTC
calendar year falls outside 1..9999, and `astimezone` overflows when the
shifted local datetime leaves that range; `convert_utc_to_vietnam_time`
returns `none` exactly in those cases. -/

/-- UTC offset in seconds and `%Z` abbreviation of `Asia/Ho_Chi_Minh`
at a given UTC epoch second, per the zone's tzdata transition history. -/
def hcmOffsetAbbrev (e : Int) : Int × String :=
  if 171820800 ≤ e then (25200, "+07")
  else if -315648000 ≤ e then (28800, "+08")
  else if -457776000 ≤ e then (25200, "+07")
  else if -718095600 ≤ e then (28800, "+08")
  else if -767869200 ≤ e then (25200, "+07")
  else if -782643600 ≤ e then (32400, "+09")
  else if -852105600 ≤ e then (28800, "+08")
  else if -1851577590 ≤ e then (25200, "+07")
  else if -2004073590 ≤ e then (25590, "PLMT")
  else (25590, "LMT")

/-- Proleptic Gregorian civil date (year, month, day) of a day number
counted from 1970-01-01, as computed by Python's `datetime`. -/
def civilFromDays (z0 : Int) : Int × Int × Int :=
  let z := z0 + 719468
  let era := z / 146097
  let doe := z % 146097
  let yoe := (doe - doe / 1460 + doe / 36524 - doe / 146096) / 365
  let doy := doe - (365 * yoe + yoe / 4 - yoe / 100)
  let mp := (5 * doy + 2) / 153
  let d := doy - (153 * mp + 2) / 5 + 1
  let m := mp + (if mp < 10 then 3 else -9)
  (yoe + era * 400 + (if m ≤ 2 then 1 else 0), m, d)

/-- Zero-padded two-digit rendering, as `strftime` does for
`%m %d %H %M %S`. -/
def pad2 (n : Int) : String :=
  if n < 10 then "0" ++ toString n else toString n

/-- `strftime("%Y-%m-%d %H:%M:%S %Z")` on the local datetime given as
seconds from the epoch in local time (glibc renders `%Y` unpadded). -/
def formatDateTime (localSec : Int) (ab : String) : String :=
  let days := localSec / 86400
  let secs := localSec % 86400
  let ymd := civilFromDays days
  toString ymd.1 ++ "-" ++ pad2 ymd.2.1 ++ "-" ++ pad2 ymd.2.2 ++ " " ++
    pad2 (secs / 3600) ++ ":" ++ pad2 (secs % 3600 / 60) ++ ":" ++
    pad2 (secs % 60) ++ " " ++ ab

/-- Smallest epoch second `datetime` can represent (0001-01-01 00:00:00 UTC). -/
def minValidEpoch : Int := -62135596800

/-- Largest epoch second `datetime` can represent (9999-12-31 23:59:59 UTC). -/
def maxValidEpoch : Int := 253402300799

/-- The conversion without `datetime`'s range checks: shift by the zone
offset at the instant and format. -/
def vietnamTimeStr (e : Int) : String :=
  let oa := hcmOffsetAbbrev e
  formatDateTime (e + oa.1) oa.2

/-- `convert_utc_to_vietnam_time` from the collector.  Returns `none`
where the Python code raises: when the UTC instant is outside
`datetime`'s year range 1..9999 (`fromtimestamp` raises), or when the
shifted local datetime overflows past 9999-12-31 23:59:59
(`astimezone` raises `OverflowError`). -/
def convert_utc_to_vietnam_time (utc_timestamp : Int) : Option String :=
  if utc_timestamp < minValidEpoch ∨ maxValidEpoch < utc_timestamp then none
  else if maxValidEpoch < utc_timestamp + (hcmOffsetAbbrev utc_timestamp).1 then none
  else some (vietnamTimeStr utc_timestamp)


/-! ## The collector (`scrape_subreddit`)

The traversal loop of `scrape_subreddit` is embedded over an abstract run
environment: the post listing the client yields, paired per post with the
outcome of that post's comment fetch/expansion
(`reddit.submission` + `replace_more` + `comments.list()`), which either
yields the flattened node list or raises `RedditAPIException`.  Field
access on already-fetched nodes is pure, so the fallible client calls are
modelled as one `FetchResult` per post. -/

/-- Python `str()` applied to the `author` attribute: a `Redditor` prints
as its name, `None` prints as the literal string `"None"`. -/
def pyStr : Option String → String
  | none => "None"
  | some s => s

/-- A post entry as exposed by the client listing (`subreddit.new`). -/
structure PostEntry where
  id : String
  title : String
  score : Int
  url : String
  author : Option String
  created_utc : Int
  selftext : String
deriving DecidableEq

/-- A real comment node as exposed by the client after expansion. -/
structure CommentEntry where
  id : String
  parent_id : String
  body : String
  score : Int
  author : Option String
  created_utc : Int
deriving DecidableEq

/-- A node of the flattened comment tree: a real `Comment` or a leftover
`MoreComments` placeholder (filtered out by the `isinstance` check). -/
inductive CommentNode where
  | comment (c : CommentEntry)
  | more
deriving DecidableEq

/-- Outcome of one post's comment retrieval/expansion: the flattened node
list, or a `RedditAPIException` reported by the client. -/
inductive FetchResult where
  | ok (nodes : List CommentNode)
  | apiError
deriving DecidableEq

/-- `comment_data` dict built at lines 70-81 of the collector. -/
structure CommentRecord where
  id : String
  post_id : String
  parent_id : String
  body : String
  score : Int
  author : String
  created_utc : Int
  created_vietnam : String
deriving DecidableEq

/-- `post_data` dict built at lines 50-60 of the collector, with its
embedded `comments` list. -/
structure PostRecord where
  id : String
  title : String
  score : Int
  url : String
  author : String
  created_utc : Int
  created_vietnam : String
  selftext : String
  comments : List CommentRecord
deriving DecidableEq

/-- The `comment_data` record for one comment of post `postId`
(`created_vietnam` uses the unchecked conversion: the run would abort on a
timestamp outside `datetime` range before reaching any output). -/
def mkCommentRecord (postId : String) (c : CommentEntry) : CommentRecord :=
  { id := c.id, post_id := postId, parent_id := c.parent_id, body := c.body,
    score := c.score, author := pyStr c.author, created_utc := c.created_utc,
    created_vietnam := vietnamTimeStr c.created_utc }

/-- The comment records appended for one post, in traversal order: every
real comment node of a successful fetch, nothing on an API error. -/
def commentRecords (postId : String) : FetchResult → List CommentRecord
  | .ok nodes => nodes.filterMap fun n =>
      match n with
      | .comment c => some (mkCommentRecord postId c)
      | .more => none
  | .apiError => []

/-- The `post_data` record for one post entry: all post fields plus the
comment list (initially empty, filled only on a successful fetch). -/
def mkPostRecord (p : PostEntry) (fr : FetchResult) : PostRecord :=
  { id := p.id, title := p.title, score := p.score, url := p.url,
    author := pyStr p.author, created_utc := p.created_utc,
    created_vietnam := vietnamTimeStr p.created_utc, selftext := p.selftext,
    comments := commentRecords p.id fr }

/-- The accumulation loop of `scrape_subreddit`: returns
(`all_posts_data`, `all_comments_data`) in traversal order.  The
`post_data` append happens outside the `try`, so a post is emitted whether
or not its fetch failed. -/
def scrape_subreddit : List (PostEntry × FetchResult) → List PostRecord × List CommentRecord
  | [] => ([], [])
  | (p, fr) :: rest =>
    let out := scrape_subreddit rest
    (mkPostRecord p fr :: out.1, commentRecords p.id fr ++ out.2)

/-! ## JSON values

The JSON fragment the collector serializes (`json.dumps` of the record
dicts): strings, integers, arrays and objects. -/

inductive JValue where
  | jstr (s : String)
  | jint (n : Int)
  | jarr (elems : List JValue)
  | jobj (fields : List (String × JValue))

/-- The JSON object `json.dumps` receives for a comment record (dict
insertion order). -/
def commentToJson (c : CommentRecord) : JValue :=
  .jobj [("id", .jstr c.id), ("post_id", .jstr c.post_id),
         ("parent_id", .jstr c.parent_id), ("body", .jstr c.body),
         ("score", .jint c.score), ("author", .jstr c.author),
         ("created_utc", .jint c.created_utc),
         ("created_vietnam", .jstr c.created_vietnam)]

/-- The JSON object `json.dumps` receives for a post record (dict
insertion order). -/
def postToJson (p : PostRecord) : JValue :=
  .jobj [("id", .jstr p.id), ("title", .jstr p.title), ("score", .jint p.score),
         ("url", .jstr p.url), ("author", .jstr p.author),
         ("created_utc", .jint p.created_utc),
         ("created_vietnam", .jstr p.created_vietnam),
         ("selftext", .jstr p.selftext),
         ("comments", .jarr (p.comments.map commentToJson))]

/-- Field access on a JSON object. -/
def lookupField : JValue → String → Option JValue
  | .jobj fields, k => fields.lookup k
  | _, _ => none

/-! ## Sample run environment (used by witnesses) -/

def samplePostA : PostEntry :=
  { id := "p1", title := "T1", score := 5, url := "u1",
    author := some "alice", created_utc := 0, selftext := "body" }

def samplePostB : PostEntry :=
  { id := "p2", title := "T2", score := -1, url := "u2",
    author := none, created_utc := 100, selftext := "" }

def sampleCommentEntry : CommentEntry :=
  { id := "c1", parent_id := "t3_p1", body := "hi", score := 2,
    author := none, created_utc := 50 }

/-- A two-post run: the first post has one real comment and one leftover
placeholder, the second post's comment fetch raises an API error. -/
def sampleListing : List (PostEntry × FetchResult) :=
  [(samplePostA, .ok [.comment sampleCommentEntry, .more]),
   (samplePostB, .apiError)]

/-! ## JSON serialization (`json.dumps`) and parsing (`json.loads`)

The collector writes each record with `json.dumps(record) + "\n"` (default
separators `", "`/`": "`, `ensure_ascii=True`); the analyzer's `load_jsonl`
reads the file line by line and feeds each line to `json.loads`, skipping
lines that raise `JSONDecodeError`.  Both library functions are embedded
over `List Char` for the JSON fragment the records use (strings, integers,
arrays, objects): `dumps` reproduces the encoder's escaping (short escapes,
`\uXXXX` with surrogate pairs for astral characters, everything outside
printable ASCII escaped) and the reader is a fuel-indexed recursive-descent
model of the scanner (whitespace tolerant, strict about control characters
and leading zeros, combining surrogate pairs; lone-surrogate escapes are
unrepresentable in `Char` and rejected; floats and `true`/`false`/`null` do
not occur in the records and are not modelled). -/

def hexDigitChar (n : Nat) : Char :=
  if n < 10 then Char.ofNat (48 + n) else Char.ofNat (87 + n)

def hex4 (n : Nat) : List Char :=
  [hexDigitChar (n / 4096 % 16), hexDigitChar (n / 256 % 16),
   hexDigitChar (n / 16 % 16), hexDigitChar (n % 16)]

def uEscape (n : Nat) : List Char :=
  if n < 0x10000 then '\\' :: 'u' :: hex4 n
  else
    let m := n - 0x10000
    ('\\' :: 'u' :: hex4 (0xd800 + m / 0x400)) ++ ('\\' :: 'u' :: hex4 (0xdc00 + m % 0x400))

def escapeChar (c : Char) : List Char :=
  if c = '"' then ['\\', '"']
  else if c = '\\' then ['\\', '\\']
  else if c = '\n' then ['\\', 'n']
  else if c = '\t' then ['\\', 't']
  else if c = '\r' then ['\\', 'r']
  else if c = '\x08' then ['\\', 'b']
  else if c = '\x0c' then ['\\', 'f']
  else if c.toNat < 0x20 ∨ 0x7e < c.toNat then uEscape c.toNat
  else [c]

def escapeString (s : String) : List Char :=
  '"' :: s.data.flatMap escapeChar ++ ['"']

def digitChar (n : Nat) : Char := Char.ofNat (48 + n)

def natChars (n : Nat) : List Char :=
  if n < 10 then [digitChar n]
  else natChars (n / 10) ++ [digitChar (n % 10)]
decreasing_by
  have : 0 < n := by omega
  exact Nat.div_lt_self this (by omega)

def intChars (n : Int) : List Char :=
  if n < 0 then '-' :: natChars n.natAbs else natChars n.natAbs

mutual
def dumps : JValue → List Char
  | .jstr s => escapeString s
  | .jint n => intChars n
  | .jarr xs => '[' :: dumpsElems xs ++ [']']
  | .jobj fs => '{' :: dumpsFields fs ++ ['}']
def dumpsElems : List JValue → List Char
  | [] => []
  | [x] => dumps x
  | x :: y :: xs => dumps x ++ ',' :: ' ' :: dumpsElems (y :: xs)
def dumpsFields : List (String × JValue) → List Char
  | [] => []
  | [(k, v)] => escapeString k ++ ':' :: ' ' :: dumps v
  | (k, v) :: f :: fs => escapeString k ++ ':' :: ' ' :: dumps v ++ ',' :: ' ' :: dumpsFields (f :: fs)
end

def isJsonWs (c : Char) : Bool := c = ' ' || c = '\t' || c = '\n' || c = '\r'

def skipWs : List Char → List Char
  | [] => []
  | c :: cs => if isJsonWs c then skipWs cs else c :: cs

def unhexDigit (c : Char) : Option Nat :=
  if '0' ≤ c ∧ c ≤ '9' then some (c.toNat - 48)
  else if 'a' ≤ c ∧ c ≤ 'f' then some (c.toNat - 87)
  else if 'A' ≤ c ∧ c ≤ 'F' then some (c.toNat - 55)
  else none

def parseHex4 : List Char → Option (Nat × List Char)
  | c1 :: c2 :: c3 :: c4 :: rest => do
      let d1 ← unhexDigit c1
      let d2 ← unhexDigit c2
      let d3 ← unhexDigit c3
      let d4 ← unhexDigit c4
      pure (((d1 * 16 + d2) * 16 + d3) * 16 + d4, rest)
  | _ => none

def parseDigitsAcc (acc : Nat) : List Char → Nat × List Char
  | [] => (acc, [])
  | c :: cs =>
    if c.isDigit then parseDigitsAcc (acc * 10 + (c.toNat - 48)) cs
    else (acc, c :: cs)

/-- `true` iff the list starts with a decimal digit. -/
def headIsDigit (l : List Char) : Bool := l.head?.any Char.isDigit

def parseNatNum : List Char → Option (Nat × List Char)
  | [] => none
  | c :: cs =>
    if c.isDigit then
      if c = '0' then
        if headIsDigit cs then none else some (0, cs)
      else some (parseDigitsAcc (c.toNat - 48) cs)
    else none

def parseIntNum (s : List Char) : Option (Int × List Char) :=
  if s.head? = some '-' then (parseNatNum s.tail).map fun p => (-(p.1 : Int), p.2)
  else (parseNatNum s).map fun p => ((p.1 : Int), p.2)

def combineSurrogates (hi lo : Nat) : Nat :=
  0x10000 + (hi - 0xd800) * 0x400 + (lo - 0xdc00)

/-- Decoding table of the single-character backslash escapes recognised by
the `json` scanner (`\uXXXX` is handled separately). -/
def escDecode (e : Char) : Option Char :=
  if e = '"' then some '"'
  else if e = '\\' then some '\\'
  else if e = '/' then some '/'
  else if e = 'b' then some '\x08'
  else if e = 'f' then some '\x0c'
  else if e = 'n' then some '\n'
  else if e = 'r' then some '\r'
  else if e = 't' then some '\t'
  else none

def parseStringBody (fuel : Nat) (s : List Char) : Option (List Char × List Char) :=
  match fuel, s with
  | 0, _ => none
  | _ + 1, [] => none
  | fuel + 1, c :: rest =>
    if c = '"' then some ([], rest)
    else if c = '\\' then
      match rest with
      | [] => none
      | e :: r =>
        match escDecode e with
        | some d => (parseStringBody fuel r).map fun p => (d :: p.1, p.2)
        | none =>
          if e = 'u' then
            match parseHex4 r with
            | none => none
            | some (n, r1) =>
              if 0xd800 ≤ n ∧ n ≤ 0xdbff then
                if r1.head? = some '\\' ∧ r1.tail.head? = some 'u' then
                  match parseHex4 r1.tail.tail with
                  | none => none
                  | some (n2, r3) =>
                    if 0xdc00 ≤ n2 ∧ n2 ≤ 0xdfff then
                      (parseStringBody fuel r3).map fun p =>
                        (Char.ofNat (combineSurrogates n n2) :: p.1, p.2)
                    else none
                else none
              else if 0xdc00 ≤ n ∧ n ≤ 0xdfff then none
              else (parseStringBody fuel r1).map fun p => (Char.ofNat n :: p.1, p.2)
          else none
    else if c.toNat < 0x20 then none
    else (parseStringBody fuel rest).map fun p => (c :: p.1, p.2)

mutual
def parseValue (fuel : Nat) (s : List Char) : Option (JValue × List Char) :=
  match fuel with
  | 0 => none
  | fuel + 1 =>
    match skipWs s with
    | [] => none
    | c :: rest =>
      if c = '"' then
        (parseStringBody fuel rest).map fun p => (JValue.jstr (String.mk p.1), p.2)
      else if c = '[' then
        if (skipWs rest).head? = some ']' then some (JValue.jarr [], (skipWs rest).tail)
        else (parseElems fuel rest).map fun p => (JValue.jarr p.1, p.2)
      else if c = '{' then
        if (skipWs rest).head? = some '}' then some (JValue.jobj [], (skipWs rest).tail)
        else (parseMembers fuel rest).map fun p => (JValue.jobj p.1, p.2)
      else (parseIntNum (c :: rest)).map fun p => (JValue.jint p.1, p.2)

def parseElems (fuel : Nat) (s : List Char) : Option (List JValue × List Char) :=
  match fuel with
  | 0 => none
  | fuel + 1 =>
    match parseValue fuel s with
    | none => none
    | some (v, r) =>
      if (skipWs r).head? = some ',' then
        (parseElems fuel (skipWs r).tail).map fun p => (v :: p.1, p.2)
      else if (skipWs r).head? = some ']' then some ([v], (skipWs r).tail)
      else none

def parseMembers (fuel : Nat) (s : List Char) : Option (List (String × JValue) × List Char) :=
  match fuel with
  | 0 => none
  | fuel + 1 =>
    match skipWs s with
    | [] => none
    | c :: rest =>
      if c = '"' then
        match parseStringBody fuel rest with
        | none => none
        | some (k, r1) =>
          if (skipWs r1).head? = some ':' then
            match parseValue fuel (skipWs r1).tail with
            | none => none
            | some (v, r3) =>
              if (skipWs r3).head? = some ',' then
                (parseMembers fuel (skipWs r3).tail).map fun p =>
                  ((String.mk k, v) :: p.1, p.2)
              else if (skipWs r3).head? = some '}' then some ([(String.mk k, v)], (skipWs r3).tail)
              else none
          else none
      else none
end

/-- Model of `json.loads` restricted to the value grammar the collector emits
(strings, integers, arrays, objects).  CPython tolerates surrounding
whitespace and rejects any trailing garbage; the fuel `2 * s.length + 1`
dominates the parser's recursion depth on any input of this length. -/
def loads (s : List Char) : Option JValue :=
  match parseValue (2 * s.length + 1) s with
  | some (v, rest) => if skipWs rest = [] then some v else none
  | none => none

/-- Helper for `splitLines`: accumulates the current line (reversed) while
scanning the remaining characters. -/
def splitLinesAux (acc : List Char) : List Char → List (List Char)
  | [] => if acc.isEmpty then [] else [acc.reverse]
  | c :: r =>
    if c = '\n' then (acc.reverse ++ ['\n']) :: splitLinesAux [] r
    else splitLinesAux (c :: acc) r

/-- Model of Python file iteration (`for line in f`): each yielded line keeps
its trailing newline character; a final fragment without a newline is yielded
as-is, and an empty file yields no lines. -/
def splitLines (s : List Char) : List (List Char) := splitLinesAux [] s

/-- Model of `load_jsonl` in `src/nu_eta/visualization.py` (lines 10-18): for
each line of the file, `json.loads` either contributes a record or raises
`json.JSONDecodeError`, in which case the line is skipped with a printed
warning.  Returns the parsed records in file order together with the number
of skipped (warned-about) lines. -/
def load_jsonl (content : List Char) : List JValue × Nat :=
  (splitLines content).foldl
    (fun acc line =>
      match loads line with
      | some v => (acc.1 ++ [v], acc.2)
      | none => (acc.1, acc.2 + 1)) ([], 0)

/-- Content the collector writes for one file: `f.write(json.dumps(item) + "\n")`
for each record in order. -/
def jsonlContent (vs : List JValue) : List Char :=
  vs.flatMap fun v => dumps v ++ ['\n']


/-- Output paths fixed in the collector's configuration block. -/
def POSTS_FILE : String := "nu_eta/posts_async.jsonl"

def COMMENTS_FILE : String := "nu_eta/comments_async.jsonl"

/-- The write phase at the end of `scrape_subreddit` (lines 89-105): each
output file is opened in mode `"w"` (truncating overwrite) and written in
full only when its collection is non-empty (`if all_posts_data:`); an
empty collection only logs.  The result lists the (path, content) writes
performed, in order. -/
def writePhase (posts : List PostRecord) (comments : List CommentRecord) :
    List (String × List Char) :=
  (if posts.isEmpty then [] else
    [(POSTS_FILE, jsonlContent (posts.map postToJson))]) ++
  (if comments.isEmpty then [] else
    [(COMMENTS_FILE, jsonlContent (comments.map commentToJson))])

/-- Observable events of one collector run, in order. -/
inductive RunEvent where
  | processedPost (id : String)
  | wroteFile (name : String) (content : List Char)

def RunEvent.isWrite : RunEvent → Bool
  | .wroteFile _ _ => true
  | .processedPost _ => false

def countWrites (name : String) (t : List RunEvent) : Nat :=
  t.countP fun e =>
    match e with
    | .wroteFile n _ => n == name
    | .processedPost _ => false

/-- Event trace of one collector run.  The async post listing may raise
after yielding its entries (`listingError`); only `RedditAPIException`
around the per-post comment fetch is caught, so such an exception
propagates out of `scrape_subreddit` and the write phase at the end of the
function is never reached. -/
def scrapeTrace (L : List (PostEntry × FetchResult)) (listingError : Bool) :
    List RunEvent :=
  (L.map fun pe => RunEvent.processedPost pe.1.id) ++
  if listingError then []
  else (writePhase (scrape_subreddit L).1 (scrape_subreddit L).2).map
    fun w => RunEvent.wroteFile w.1 w.2

/-! ## Theorems about the time conversion -/

/-- Civil-date components stay in calendar ranges over the whole day span
reachable from `datetime`-representable local times. -/
theorem civilFromDays_bounds (z0 : Int) (h1 : -719162 ≤ z0) (h2 : z0 ≤ 2932896) :
    1 ≤ (civilFromDays z0).1 ∧ (civilFromDays z0).1 ≤ 9999 ∧
    1 ≤ (civilFromDays z0).2.1 ∧ (civilFromDays z0).2.1 ≤ 12 ∧
    1 ≤ (civilFromDays z0).2.2 ∧ (civilFromDays z0).2.2 ≤ 31 := by
  simp only [civilFromDays]
  split <;> split <;> omega

/-- The zone offset is always between 25200 and 32400 seconds and the
abbreviation is one of the five historical ones. -/
theorem hcmOffset_cases (e : Int) :
    (25200 ≤ (hcmOffsetAbbrev e).1 ∧ (hcmOffsetAbbrev e).1 ≤ 32400) ∧
    (hcmOffsetAbbrev e).2 ∈ ["LMT", "PLMT", "+07", "+08", "+09"] := by
  unfold hcmOffsetAbbrev
  split_ifs <;> exact ⟨⟨by omega, by omega⟩, by simp⟩

/-- C3, counterexample: converting epoch 0 yields `1970-01-01 08:00:00 +08`,
a string that does not start with `1970-01-01 07:00:00`, so the output is
not `1970-01-01 07:00:00` followed by a zone abbreviation. -/
theorem epoch0_not_7am :
    convert_utc_to_vietnam_time 0 = some "1970-01-01 08:00:00 +08" ∧
    ("1970-01-01 08:00:00 +08").data.take 19 ≠ ("1970-01-01 07:00:00").data :=
  ⟨by decide, by decide⟩

/-- C3, amended: applying the time-conversion function to epoch value 0
yields `1970-01-01 08:00:00 +08`: at epoch 0 the target zone observed a
UTC+8 offset (it switched to its present UTC+7 offset on 1975-06-13). -/
theorem epoch0_is_8am_plus08 :
    convert_utc_to_vietnam_time 0 = some "1970-01-01 08:00:00 +08" := by
  decide

/-- C5, counterexample: epoch 253402275600 is a valid epoch value
(`datetime.fromtimestamp` accepts it: it lies within the representable
range), yet the conversion fails (`astimezone` overflows past year 9999),
so the conversion is not total on valid epoch values. -/
theorem conversion_fails_on_valid_epoch :
    minValidEpoch ≤ (253402275600 : Int) ∧ (253402275600 : Int) ≤ maxValidEpoch ∧
    convert_utc_to_vietnam_time 253402275600 = none :=
  ⟨by decide, by decide, by decide⟩

/-- C5, amended: for every valid epoch value whose shifted local datetime is
also representable (epoch + zone offset at most `maxValidEpoch`; the
conversion raises `OverflowError` on the top 25200 seconds of the valid
range), the conversion succeeds and returns a string
`Y-MM-DD HH:MM:SS <zone-abbreviation>` with two-digit zero-padded month,
day, hour, minute and second fields in calendar range, the year between 1
and 9999 (rendered unpadded, hence four digits for all modern epochs), and
the abbreviation one of the zone's five historical abbreviations; the
conversion is a pure function of the epoch value. -/
theorem conversion_total_and_formatted (e : Int) (h1 : minValidEpoch ≤ e)
    (h2 : e + (hcmOffsetAbbrev e).1 ≤ maxValidEpoch) :
    ∃ (y m d hh mi ss : Int) (ab : String),
      convert_utc_to_vietnam_time e =
        some (toString y ++ "-" ++ pad2 m ++ "-" ++ pad2 d ++ " " ++
          pad2 hh ++ ":" ++ pad2 mi ++ ":" ++ pad2 ss ++ " " ++ ab) ∧
      1 ≤ y ∧ y ≤ 9999 ∧ 1 ≤ m ∧ m ≤ 12 ∧ 1 ≤ d ∧ d ≤ 31 ∧
      0 ≤ hh ∧ hh < 24 ∧ 0 ≤ mi ∧ mi < 60 ∧ 0 ≤ ss ∧ ss < 60 ∧
      ab ∈ ["LMT", "PLMT", "+07", "+08", "+09"] := by
  obtain ⟨⟨hlo, hhi⟩, hab⟩ := hcmOffset_cases e
  simp only [minValidEpoch, maxValidEpoch] at h1 h2
  have hdays1 : -719162 ≤ (e + (hcmOffsetAbbrev e).1) / 86400 := by omega
  have hdays2 : (e + (hcmOffsetAbbrev e).1) / 86400 ≤ 2932896 := by omega
  obtain ⟨hy1, hy2, hm1, hm2, hd1, hd2⟩ :=
    civilFromDays_bounds ((e + (hcmOffsetAbbrev e).1) / 86400) hdays1 hdays2
  refine ⟨(civilFromDays ((e + (hcmOffsetAbbrev e).1) / 86400)).1,
    (civilFromDays ((e + (hcmOffsetAbbrev e).1) / 86400)).2.1,
    (civilFromDays ((e + (hcmOffsetAbbrev e).1) / 86400)).2.2,
    (e + (hcmOffsetAbbrev e).1) % 86400 / 3600,
    (e + (hcmOffsetAbbrev e).1) % 86400 % 3600 / 60,
    (e + (hcmOffsetAbbrev e).1) % 86400 % 60,
    (hcmOffsetAbbrev e).2,
    ?_, hy1, hy2, hm1, hm2, hd1, hd2, ?_, ?_, ?_, ?_, ?_, ?_, hab⟩
  · unfold convert_utc_to_vietnam_time
    rw [if_neg (by simp only [minValidEpoch, maxValidEpoch]; omega),
      if_neg (by simp only [maxValidEpoch]; omega)]
    rfl
  all_goals omega

/-- C5, witness: the amended totality theorem applied at epoch 0. -/
theorem conversion_total_and_formatted_witness :
    (minValidEpoch ≤ (0 : Int) ∧
      (0 : Int) + (hcmOffsetAbbrev 0).1 ≤ maxValidEpoch) ∧
    ∃ (y m d hh mi ss : Int) (ab : String),
      convert_utc_to_vietnam_time 0 =
        some (toString y ++ "-" ++ pad2 m ++ "-" ++ pad2 d ++ " " ++
          pad2 hh ++ ":" ++ pad2 mi ++ ":" ++ pad2 ss ++ " " ++ ab) ∧
      1 ≤ y ∧ y ≤ 9999 ∧ 1 ≤ m ∧ m ≤ 12 ∧ 1 ≤ d ∧ d ≤ 31 ∧
      0 ≤ hh ∧ hh < 24 ∧ 0 ≤ mi ∧ mi < 60 ∧ 0 ≤ ss ∧ ss < 60 ∧
      ab ∈ ["LMT", "PLMT", "+07", "+08", "+09"] :=
  ⟨⟨by decide, by decide⟩,
    conversion_total_and_formatted 0 (by decide) (by decide)⟩

/-! ## Theorems about the collector -/

/-- The emitted post list is the listing mapped through `mkPostRecord`. -/
theorem scrape_posts_eq (L : List (PostEntry × FetchResult)) :
    (scrape_subreddit L).1 = L.map fun pe => mkPostRecord pe.1 pe.2 := by
  induction L with
  | nil => rfl
  | cons pe rest ih => cases pe; simp [scrape_subreddit, ih]

/-- The global comment stream is the concatenation of each post's comment
records, in listing order. -/
theorem scrape_comments_eq (L : List (PostEntry × FetchResult)) :
    (scrape_subreddit L).2 = L.flatMap fun pe => commentRecords pe.1.id pe.2 := by
  induction L with
  | nil => rfl
  | cons pe rest ih => cases pe; simp [scrape_subreddit, ih]

/-- Every comment record built for a post carries that post's id. -/
theorem commentRecords_post_id {pid : String} {fr : FetchResult} {c : CommentRecord}
    (hc : c ∈ commentRecords pid fr) : c.post_id = pid := by
  cases fr with
  | apiError => simp [commentRecords] at hc
  | ok nodes =>
    simp only [commentRecords, List.mem_filterMap] at hc
    obtain ⟨n, _, hn⟩ := hc
    cases n with
    | comment ce => simp at hn; subst hn; rfl
    | more => simp at hn

/-- C1: for every post record P emitted by the collector (over a listing
whose post ids are pairwise distinct, as Reddit ids are within a run), the
length of P's embedded comment list equals the number of comment records
in the global comment stream whose `post_id` equals P's id. -/
theorem post_comment_count (L : List (PostEntry × FetchResult))
    (hnodup : (L.map fun pe => pe.1.id).Nodup)
    (p : PostRecord) (hp : p ∈ (scrape_subreddit L).1) :
    p.comments.length = (scrape_subreddit L).2.countP fun c => c.post_id == p.id := by
  induction L with
  | nil => simp [scrape_subreddit] at hp
  | cons qe rest ih =>
    obtain ⟨q, fr⟩ := qe
    simp only [List.map_cons, List.nodup_cons] at hnodup
    obtain ⟨hqnot, hnd⟩ := hnodup
    simp only [scrape_posts_eq, List.map_cons, List.mem_cons] at hp
    have hstream : (scrape_subreddit ((q, fr) :: rest)).2 =
        commentRecords q.id fr ++ (scrape_subreddit rest).2 := by
      simp [scrape_subreddit]
    rw [hstream, List.countP_append]
    rcases hp with hp | hp
    · subst hp
      have h1 : (commentRecords q.id fr).countP
          (fun c => c.post_id == (mkPostRecord q fr).id) = (commentRecords q.id fr).length := by
        apply List.countP_eq_length.mpr
        intro c hc
        simp [commentRecords_post_id hc, mkPostRecord]
      have h2 : (scrape_subreddit rest).2.countP
          (fun c => c.post_id == (mkPostRecord q fr).id) = 0 := by
        apply List.countP_eq_zero.mpr
        intro c hc
        rw [scrape_comments_eq] at hc
        obtain ⟨pe, hpe, hcm⟩ := List.mem_flatMap.mp hc
        have := commentRecords_post_id hcm
        simp only [mkPostRecord, beq_iff_eq, this]
        intro hcontra
        exact hqnot (by rw [← hcontra]; exact List.mem_map.mpr ⟨pe, hpe, rfl⟩)
      rw [h1, h2]
      rfl
    · have hpid : p.id ∈ rest.map fun pe => pe.1.id := by
        rw [List.mem_map] at hp ⊢
        obtain ⟨pe, hpe, hmk⟩ := hp
        exact ⟨pe, hpe, by rw [← hmk]; rfl⟩
      have h1 : (commentRecords q.id fr).countP (fun c => c.post_id == p.id) = 0 := by
        apply List.countP_eq_zero.mpr
        intro c hc
        rw [commentRecords_post_id hc]
        simp only [beq_iff_eq]
        intro hcontra
        exact hqnot (hcontra ▸ hpid)
      rw [h1]
      have := ih hnd (by rw [scrape_posts_eq]; exact hp)
      omega

/-- C1, witness: on the sample run the first post's record embeds exactly
as many comments as the global stream holds for its id. -/
theorem post_comment_count_witness :
    (sampleListing.map fun pe => pe.1.id).Nodup ∧
    (mkPostRecord samplePostA (.ok [.comment sampleCommentEntry, .more])).comments.length =
      (scrape_subreddit sampleListing).2.countP
        (fun c => c.post_id ==
          (mkPostRecord samplePostA (.ok [.comment sampleCommentEntry, .more])).id) :=
  ⟨by decide, post_comment_count sampleListing (by decide) _ (by decide)⟩

/-- C2: a post whose comment retrieval raises a client-reported API error
does not abort the run (every listing entry still yields a post record),
and its record is emitted with all post fields and an empty comment
list. -/
theorem api_error_post_still_emitted (L : List (PostEntry × FetchResult))
    (pe : PostEntry × FetchResult) (hmem : pe ∈ L) (herr : pe.2 = FetchResult.apiError) :
    (scrape_subreddit L).1.length = L.length ∧
    ∃ r ∈ (scrape_subreddit L).1,
      r.id = pe.1.id ∧ r.title = pe.1.title ∧ r.score = pe.1.score ∧
      r.url = pe.1.url ∧ r.author = pyStr pe.1.author ∧
      r.created_utc = pe.1.created_utc ∧ r.selftext = pe.1.selftext ∧
      r.comments = [] := by
  constructor
  · rw [scrape_posts_eq, List.length_map]
  · refine ⟨mkPostRecord pe.1 pe.2, ?_, rfl, rfl, rfl, rfl, rfl, rfl, rfl, ?_⟩
    · rw [scrape_posts_eq]
      exact List.mem_map.mpr ⟨pe, hmem, rfl⟩
    · rw [herr]
      rfl

/-- C2, witness: in the sample run the second post's fetch fails, yet both
posts are emitted and the failed one has an empty comment list. -/
theorem api_error_post_still_emitted_witness :
    ((samplePostB, FetchResult.apiError) ∈ sampleListing) ∧
    ((scrape_subreddit sampleListing).1.length = sampleListing.length ∧
    ∃ r ∈ (scrape_subreddit sampleListing).1,
      r.id = samplePostB.id ∧ r.title = samplePostB.title ∧
      r.score = samplePostB.score ∧ r.url = samplePostB.url ∧
      r.author = pyStr samplePostB.author ∧
      r.created_utc = samplePostB.created_utc ∧
      r.selftext = samplePostB.selftext ∧ r.comments = []) :=
  ⟨by decide,
    api_error_post_still_emitted sampleListing (samplePostB, FetchResult.apiError)
      (by decide) rfl⟩

/-- C7: every comment record in the global comment stream carries the id
of some post record emitted in the same run. -/
theorem comment_post_id_resolves (L : List (PostEntry × FetchResult))
    (c : CommentRecord) (hc : c ∈ (scrape_subreddit L).2) :
    ∃ p ∈ (scrape_subreddit L).1, p.id = c.post_id := by
  rw [scrape_comments_eq] at hc
  obtain ⟨pe, hpe, hcm⟩ := List.mem_flatMap.mp hc
  refine ⟨mkPostRecord pe.1 pe.2, ?_, ?_⟩
  · rw [scrape_posts_eq]
    exact List.mem_map.mpr ⟨pe, hpe, rfl⟩
  · rw [commentRecords_post_id hcm]
    rfl

/-- C7, witness: the sample run's one comment record resolves to an
emitted post. -/
theorem comment_post_id_resolves_witness :
    mkCommentRecord "p1" sampleCommentEntry ∈ (scrape_subreddit sampleListing).2 ∧
    ∃ p ∈ (scrape_subreddit sampleListing).1,
      p.id = (mkCommentRecord "p1" sampleCommentEntry).post_id :=
  ⟨by decide,
    comment_post_id_resolves sampleListing (mkCommentRecord "p1" sampleCommentEntry)
      (by decide)⟩

/-- C10: the author field of every record the collector produces is the
`str()` image of the record's client-side author value.  Universally over
listing entries: every entry's emitted post record carries author
`pyStr pf.1.author`, every real comment node's emitted comment record
carries author `pyStr ce.author`, and whenever the client value is `None`
the field is the literal string `"None"`; moreover every emitted post and
comment record serializes its author as a JSON string (never JSON null). -/
theorem author_always_string (L : List (PostEntry × FetchResult)) :
    (∀ pf ∈ L,
      mkPostRecord pf.1 pf.2 ∈ (scrape_subreddit L).1 ∧
      (mkPostRecord pf.1 pf.2).author = pyStr pf.1.author ∧
      (pf.1.author = none → (mkPostRecord pf.1 pf.2).author = "None")) ∧
    (∀ pf ∈ L, ∀ nodes, pf.2 = FetchResult.ok nodes →
      ∀ ce, CommentNode.comment ce ∈ nodes →
        mkCommentRecord pf.1.id ce ∈ (scrape_subreddit L).2 ∧
        (mkCommentRecord pf.1.id ce).author = pyStr ce.author ∧
        (ce.author = none → (mkCommentRecord pf.1.id ce).author = "None")) ∧
    (∀ p ∈ (scrape_subreddit L).1,
      lookupField (postToJson p) "author" = some (JValue.jstr p.author)) ∧
    (∀ c ∈ (scrape_subreddit L).2,
      lookupField (commentToJson c) "author" = some (JValue.jstr c.author)) := by
  refine ⟨?_, ?_, ?_, ?_⟩
  · intro pf hpf
    refine ⟨?_, rfl, fun ha => ?_⟩
    · rw [scrape_posts_eq]
      exact List.mem_map_of_mem _ hpf
    · show pyStr pf.1.author = "None"
      rw [ha]; rfl
  · intro pf hpf nodes hok ce hce
    refine ⟨?_, rfl, fun ha => ?_⟩
    · rw [scrape_comments_eq]
      refine List.mem_flatMap.mpr ⟨pf, hpf, ?_⟩
      rw [hok]
      exact List.mem_filterMap.mpr ⟨CommentNode.comment ce, hce, rfl⟩
    · show pyStr ce.author = "None"
      rw [ha]; rfl
  · intro p _
    rfl
  · intro c _
    rfl

/-- C10, witness: in the sample run the deleted-author post and the
deleted-author comment both carry the literal author string `"None"`, and
the post's JSON object holds that value under the author key. -/
theorem author_always_string_witness :
    (mkPostRecord samplePostB FetchResult.apiError).author = "None" ∧
    (mkCommentRecord "p1" sampleCommentEntry).author = "None" ∧
    lookupField (postToJson (mkPostRecord samplePostB FetchResult.apiError)) "author"
      = some (JValue.jstr (mkPostRecord samplePostB FetchResult.apiError).author) := by
  refine ⟨?_, ?_, ?_⟩
  · exact ((author_always_string sampleListing).1 (samplePostB, FetchResult.apiError)
      (by decide)).2.2 (by decide)
  · exact ((author_always_string sampleListing).2.1
      (samplePostA, FetchResult.ok [CommentNode.comment sampleCommentEntry, CommentNode.more])
      (by decide) [CommentNode.comment sampleCommentEntry, CommentNode.more] rfl
      sampleCommentEntry (by decide)).2.2 (by decide)
  · exact (author_always_string sampleListing).2.2.1
      (mkPostRecord samplePostB FetchResult.apiError) (by decide)

/-! ## Round trip of the JSON embedding -/

theorem char_valid_toNat (c : Char) :
    c.toNat < 0xd800 ∨ (0xdfff < c.toNat ∧ c.toNat < 0x110000) := c.valid

theorem unhexDigit_hexDigitChar (k : Nat) (hk : k < 16) :
    unhexDigit (hexDigitChar k) = some k := by
  interval_cases k <;> decide

theorem parseHex4_hex4 (n : Nat) (hn : n < 65536) (rest : List Char) :
    parseHex4 (hex4 n ++ rest) = some (n, rest) := by
  have h1 : n / 4096 % 16 < 16 := Nat.mod_lt _ (by omega)
  have h2 : n / 256 % 16 < 16 := Nat.mod_lt _ (by omega)
  have h3 : n / 16 % 16 < 16 := Nat.mod_lt _ (by omega)
  have h4 : n % 16 < 16 := Nat.mod_lt _ (by omega)
  simp only [hex4, List.cons_append, List.nil_append, parseHex4,
    unhexDigit_hexDigitChar _ h1, unhexDigit_hexDigitChar _ h2,
    unhexDigit_hexDigitChar _ h3, unhexDigit_hexDigitChar _ h4,
    Option.bind_eq_bind, Option.some_bind, Option.pure_def, Option.some.injEq,
    Prod.mk.injEq]
  exact ⟨by omega, trivial⟩

theorem digitChar_facts (d : Nat) (hd : d < 10) :
    (digitChar d).isDigit = true ∧ (digitChar d).toNat = 48 + d ∧
    (digitChar d = '0' ↔ d = 0) := by
  interval_cases d <;> refine ⟨by decide, by decide, by decide⟩

theorem isDigit_ne (c : Char) (h : c.isDigit = true) :
    isJsonWs c = false ∧ c ≠ ']' ∧ c ≠ '}' ∧ c ≠ '"' ∧ c ≠ '[' ∧
    c ≠ '{' ∧ c ≠ '-' ∧ c ≠ ',' ∧ c ≠ ':' := by
  have w1 : c ≠ ' ' := fun hc => by subst hc; exact absurd h (by decide)
  have w2 : c ≠ '\t' := fun hc => by subst hc; exact absurd h (by decide)
  have w3 : c ≠ '\n' := fun hc => by subst hc; exact absurd h (by decide)
  have w4 : c ≠ '\r' := fun hc => by subst hc; exact absurd h (by decide)
  refine ⟨by simp [isJsonWs, w1, w2, w3, w4], ?_, ?_, ?_, ?_, ?_, ?_, ?_, ?_⟩ <;>
    exact fun hc => by subst hc; exact absurd h (by decide)

theorem parseDigitsAcc_stop (acc : Nat) (rest : List Char) (h : headIsDigit rest = false) :
    parseDigitsAcc acc rest = (acc, rest) := by
  cases rest with
  | nil => rfl
  | cons c cs =>
    simp only [headIsDigit, List.head?_cons, Option.any_some] at h
    simp [parseDigitsAcc, h]

theorem parseDigitsAcc_natChars (m : Nat) : ∀ (acc : Nat) (rest : List Char),
    parseDigitsAcc acc (natChars m ++ rest) =
      parseDigitsAcc (acc * 10 ^ (natChars m).length + m) rest := by
  induction m using Nat.strong_induction_on with
  | _ m ih =>
    intro acc rest
    by_cases hm : m < 10
    · obtain ⟨hdig, htn, _⟩ := digitChar_facts m hm
      rw [natChars, if_pos hm]
      simp only [List.cons_append, List.nil_append, parseDigitsAcc, hdig, if_true,
        List.length_cons, List.length_nil, pow_one, htn]
      congr 1
      omega
    · rw [natChars, if_neg hm, List.append_assoc]
      rw [ih (m / 10) (Nat.div_lt_self (by omega) (by omega)) acc
        ([digitChar (m % 10)] ++ rest)]
      obtain ⟨hdig, htn, _⟩ := digitChar_facts (m % 10) (Nat.mod_lt _ (by omega))
      rw [List.singleton_append]
      simp only [parseDigitsAcc, hdig, if_true, htn]
      congr 1
      simp only [List.length_append, List.length_cons, List.length_nil, Nat.zero_add,
        pow_succ, ← Nat.mul_assoc]
      generalize acc * 10 ^ (natChars (m / 10)).length = A
      omega

theorem natChars_shape (m : Nat) :
    ∃ c cs, natChars m = c :: cs ∧ c.isDigit = true ∧ (c = '0' → m = 0) := by
  induction m using Nat.strong_induction_on with
  | _ m ih =>
    by_cases hm : m < 10
    · obtain ⟨hdig, _, hzero⟩ := digitChar_facts m hm
      exact ⟨digitChar m, [], by rw [natChars, if_pos hm], hdig, fun hc => hzero.mp hc⟩
    · obtain ⟨c, cs, hform, hdig, hzero⟩ := ih (m / 10) (Nat.div_lt_self (by omega) (by omega))
      refine ⟨c, cs ++ [digitChar (m % 10)], ?_, hdig, ?_⟩
      · rw [natChars, if_neg hm, hform]
        rfl
      · intro hc
        have := hzero hc
        omega

theorem parseNatNum_natChars (m : Nat) (rest : List Char) (h : headIsDigit rest = false) :
    parseNatNum (natChars m ++ rest) = some (m, rest) := by
  have hacc : parseDigitsAcc 0 (natChars m ++ rest) = (m, rest) := by
    rw [parseDigitsAcc_natChars]
    simp only [Nat.zero_mul, Nat.zero_add]
    exact parseDigitsAcc_stop m rest h
  obtain ⟨c, cs, hform, hdig, hzero⟩ := natChars_shape m
  rw [hform, List.cons_append] at hacc ⊢
  simp only [parseDigitsAcc, hdig, if_true] at hacc
  by_cases hc : c = '0'
  · have hm0 : m = 0 := hzero hc
    subst hm0 hc
    have h0 : natChars 0 = ['0'] := by rw [natChars]; decide
    rw [h0] at hform
    simp only [List.cons.injEq, true_and] at hform
    subst hform
    simp [parseNatNum, h]
  · simp only [parseNatNum, hdig, if_true, if_neg hc]
    rw [Nat.zero_mul, Nat.zero_add] at hacc
    rw [hacc]

theorem parseIntNum_intChars (n : Int) (rest : List Char) (h : headIsDigit rest = false) :
    parseIntNum (intChars n ++ rest) = some (n, rest) := by
  by_cases hn : n < 0
  · rw [intChars, if_pos hn, List.cons_append]
    unfold parseIntNum
    simp only [List.head?_cons, List.tail_cons]
    rw [if_pos trivial, parseNatNum_natChars n.natAbs rest h]
    simp only [Option.map, Option.some.injEq, Prod.mk.injEq]
    refine ⟨by omega, trivial⟩
  · rw [intChars, if_neg hn]
    obtain ⟨c, cs, hform, hdig, -⟩ := natChars_shape n.natAbs
    obtain ⟨-, -, -, -, -, -, hnotminus, -, -⟩ := isDigit_ne c hdig
    rw [hform, List.cons_append]
    unfold parseIntNum
    simp only [List.head?_cons]
    rw [if_neg (by simp [hnotminus])]
    rw [show c :: (cs ++ rest) = (c :: cs) ++ rest from rfl, ← hform,
      parseNatNum_natChars n.natAbs rest h]
    simp only [Option.map, Option.some.injEq, Prod.mk.injEq]
    refine ⟨by omega, trivial⟩


theorem escapeChar_length_pos (c : Char) : 1 ≤ (escapeChar c).length := by
  unfold escapeChar uEscape
  split_ifs <;> simp [hex4]

theorem psb_esc_two (f : Nat) (e d : Char) (tail out rest : List Char)
    (hrec : parseStringBody f tail = some (out, rest))
    (he : (e, d) ∈ [('"', '"'), ('\\', '\\'), ('/', '/'), ('b', '\x08'), ('f', '\x0c'),
      ('n', '\n'), ('r', '\r'), ('t', '\t')]) :
    parseStringBody (f + 1) ('\\' :: e :: tail) = some (d :: out, rest) := by
  simp only [List.mem_cons, List.not_mem_nil, or_false, Prod.mk.injEq] at he
  rcases he with ⟨h1, h2⟩ | ⟨h1, h2⟩ | ⟨h1, h2⟩ | ⟨h1, h2⟩ | ⟨h1, h2⟩ | ⟨h1, h2⟩ |
    ⟨h1, h2⟩ | ⟨h1, h2⟩ <;> subst h1 <;> subst h2 <;>
    simp +decide [parseStringBody, escDecode, hrec]

theorem psb_uEscape_bmp (f : Nat) (c : Char) (tail out rest : List Char)
    (hrec : parseStringBody f tail = some (out, rest)) (h9 : c.toNat < 65536) :
    parseStringBody (f + 1) (('\\' :: 'u' :: hex4 c.toNat) ++ tail) = some (c :: out, rest) := by
  have hval := char_valid_toNat c
  have hA : ¬(55296 ≤ c.toNat ∧ c.toNat ≤ 56319) := by omega
  have hB : ¬(56320 ≤ c.toNat ∧ c.toNat ≤ 57343) := by omega
  simp only [List.cons_append, List.append_assoc]
  simp +decide [parseStringBody]
  simp [parseHex4_hex4 c.toNat (by omega), hA, hB, hrec, Char.ofNat_toNat, escDecode]

theorem psb_u_pair (f : Nat) (hi lo : Nat) (tail out rest : List Char)
    (hA : 0xd800 ≤ hi ∧ hi ≤ 0xdbff) (hB : 0xdc00 ≤ lo ∧ lo ≤ 0xdfff)
    (hrec : parseStringBody f tail = some (out, rest)) :
    parseStringBody (f + 1)
      ('\\' :: 'u' :: (hex4 hi ++ ('\\' :: 'u' :: (hex4 lo ++ tail)))) =
      some (Char.ofNat (combineSurrogates hi lo) :: out, rest) := by
  simp +decide [parseStringBody, escDecode]
  simp [parseHex4_hex4 hi (by omega), parseHex4_hex4 lo (by omega), hA, hB, hrec]

theorem psb_uEscape_astral (f : Nat) (c : Char) (tail out rest : List Char)
    (hrec : parseStringBody f tail = some (out, rest)) (h9 : ¬c.toNat < 65536) :
    parseStringBody (f + 1)
      ((('\\' :: 'u' :: hex4 (0xd800 + (c.toNat - 0x10000) / 0x400)) ++
        ('\\' :: 'u' :: hex4 (0xdc00 + (c.toNat - 0x10000) % 0x400))) ++ tail) =
      some (c :: out, rest) := by
  have hval := char_valid_toNat c
  have hcomb : combineSurrogates (0xd800 + (c.toNat - 0x10000) / 0x400)
      (0xdc00 + (c.toNat - 0x10000) % 0x400) = c.toNat := by
    unfold combineSurrogates
    omega
  have h := psb_u_pair f (0xd800 + (c.toNat - 0x10000) / 0x400)
    (0xdc00 + (c.toNat - 0x10000) % 0x400) tail out rest
    (by omega) (by omega) hrec
  rw [hcomb, Char.ofNat_toNat] at h
  simpa only [List.cons_append, List.append_assoc] using h

theorem psb_uEscape (f : Nat) (c : Char) (tail out rest : List Char)
    (hrec : parseStringBody f tail = some (out, rest)) :
    parseStringBody (f + 1) (uEscape c.toNat ++ tail) = some (c :: out, rest) := by
  by_cases h9 : c.toNat < 65536
  · rw [uEscape, if_pos h9]
    exact psb_uEscape_bmp f c tail out rest hrec h9
  · rw [uEscape, if_neg h9]
    exact psb_uEscape_astral f c tail out rest hrec h9

theorem psb_literal (f : Nat) (c : Char) (tail out rest : List Char)
    (hrec : parseStringBody f tail = some (out, rest))
    (h1 : c ≠ '"') (h2 : c ≠ '\\') (hge : ¬c.toNat < 32) :
    parseStringBody (f + 1) (c :: tail) = some (c :: out, rest) := by
  simp [parseStringBody, h1, h2, hge, hrec]

theorem psb_escapeChar (f : Nat) (c : Char) (tail out rest : List Char)
    (hrec : parseStringBody f tail = some (out, rest)) :
    parseStringBody (f + 1) (escapeChar c ++ tail) = some (c :: out, rest) := by
  by_cases h1 : c = '"'
  · subst h1
    exact psb_esc_two f '"' '"' tail out rest hrec (by simp)
  by_cases h2 : c = '\\'
  · subst h2
    exact psb_esc_two f '\\' '\\' tail out rest hrec (by simp)
  by_cases h3 : c = '\n'
  · subst h3
    exact psb_esc_two f 'n' '\n' tail out rest hrec (by simp)
  by_cases h4 : c = '\t'
  · subst h4
    exact psb_esc_two f 't' '\t' tail out rest hrec (by simp)
  by_cases h5 : c = '\r'
  · subst h5
    exact psb_esc_two f 'r' '\r' tail out rest hrec (by simp)
  by_cases h6 : c = '\x08'
  · subst h6
    exact psb_esc_two f 'b' '\x08' tail out rest hrec (by simp)
  by_cases h7 : c = '\x0c'
  · subst h7
    exact psb_esc_two f 'f' '\x0c' tail out rest hrec (by simp)
  by_cases h8 : c.toNat < 0x20 ∨ 0x7e < c.toNat
  · rw [show escapeChar c = uEscape c.toNat by
      rw [escapeChar, if_neg h1, if_neg h2, if_neg h3, if_neg h4,
        if_neg h5, if_neg h6, if_neg h7, if_pos h8]]
    exact psb_uEscape f c tail out rest hrec
  · rw [show escapeChar c = [c] by
      rw [escapeChar, if_neg h1, if_neg h2, if_neg h3, if_neg h4,
        if_neg h5, if_neg h6, if_neg h7, if_neg h8]]
    exact psb_literal f c tail out rest hrec h1 h2 (by omega)

theorem parseStringBody_escape (cs : List Char) : ∀ (fuel : Nat) (rest : List Char),
    (cs.flatMap escapeChar).length + 1 ≤ fuel →
    parseStringBody fuel (cs.flatMap escapeChar ++ '"' :: rest) = some (cs, rest) := by
  induction cs with
  | nil =>
    intro fuel rest hfuel
    cases fuel with
    | zero => omega
    | succ f => simp [parseStringBody]
  | cons c cs ih =>
    intro fuel rest hfuel
    rw [List.flatMap_cons] at hfuel ⊢
    rw [List.append_assoc]
    cases fuel with
    | zero =>
      have := escapeChar_length_pos c
      simp only [List.length_append] at hfuel
      omega
    | succ f =>
      have hb : (cs.flatMap escapeChar).length + 1 ≤ f := by
        have := escapeChar_length_pos c
        simp only [List.length_append] at hfuel
        omega
      exact psb_escapeChar f c (cs.flatMap escapeChar ++ '"' :: rest) cs rest (ih f rest hb)

theorem mk_data (s : String) : String.mk s.data = s := by
  cases s
  rfl

theorem skipWs_drop_ws (pre : List Char) (s : List Char)
    (hpre : ∀ c ∈ pre, isJsonWs c = true) : skipWs (pre ++ s) = skipWs s := by
  induction pre with
  | nil => rfl
  | cons c cs ih =>
    rw [List.cons_append, skipWs, if_pos (hpre c (by simp))]
    exact ih fun d hd => hpre d (by simp [hd])

theorem skipWs_cons_of_not (c : Char) (s : List Char) (h : isJsonWs c = false) :
    skipWs (c :: s) = c :: s := by
  rw [skipWs, if_neg (by simp [h])]

theorem intChars_shape (n : Int) :
    ∃ c cs, intChars n = c :: cs ∧ (c = '-' ∨ c.isDigit = true) := by
  obtain ⟨c, cs, hform, hdig, -⟩ := natChars_shape n.natAbs
  by_cases hn : n < 0
  · exact ⟨'-', natChars n.natAbs, by rw [intChars, if_pos hn], Or.inl rfl⟩
  · exact ⟨c, cs, by rw [intChars, if_neg hn, hform], Or.inr hdig⟩

theorem dumps_shape (v : JValue) :
    ∃ c cs, dumps v = c :: cs ∧
      (c = '"' ∨ c = '[' ∨ c = '{' ∨ c = '-' ∨ c.isDigit = true) := by
  cases v with
  | jstr s => exact ⟨'"', s.data.flatMap escapeChar ++ ['"'], by simp [dumps, escapeString], by simp⟩
  | jint n =>
    obtain ⟨c, cs, hform, h⟩ := intChars_shape n
    exact ⟨c, cs, by simp [dumps, hform], by tauto⟩
  | jarr xs => exact ⟨'[', dumpsElems xs ++ [']'], by simp [dumps], by simp⟩
  | jobj fs => exact ⟨'{', dumpsFields fs ++ ['}'], by simp [dumps], by simp⟩

theorem starter_facts {c : Char}
    (h : c = '"' ∨ c = '[' ∨ c = '{' ∨ c = '-' ∨ c.isDigit = true) :
    isJsonWs c = false ∧ c ≠ ']' ∧ c ≠ '}' ∧ c ≠ ',' ∧ c ≠ ':' := by
  rcases h with h | h | h | h | h
  · subst h; exact ⟨by decide, by decide, by decide, by decide, by decide⟩
  · subst h; exact ⟨by decide, by decide, by decide, by decide, by decide⟩
  · subst h; exact ⟨by decide, by decide, by decide, by decide, by decide⟩
  · subst h; exact ⟨by decide, by decide, by decide, by decide, by decide⟩
  · obtain ⟨hws, h1, h2, -, -, -, -, h3, h4⟩ := isDigit_ne c h
    exact ⟨hws, h1, h2, h3, h4⟩

theorem dumps_length_pos (v : JValue) : 1 ≤ (dumps v).length := by
  obtain ⟨c, cs, hform, -⟩ := dumps_shape v
  rw [hform]
  simp

theorem dumpsElems_shape (x : JValue) (xs : List JValue) :
    ∃ c cs, dumpsElems (x :: xs) = c :: cs ∧
      (c = '"' ∨ c = '[' ∨ c = '{' ∨ c = '-' ∨ c.isDigit = true) := by
  obtain ⟨c, cs, hform, h⟩ := dumps_shape x
  cases xs with
  | nil => exact ⟨c, cs, by simp [dumpsElems, hform], h⟩
  | cons y ys =>
    exact ⟨c, cs ++ ',' :: ' ' :: dumpsElems (y :: ys), by simp [dumpsElems, hform], h⟩

theorem dumpsFields_shape (k : String) (v : JValue) (fs : List (String × JValue)) :
    ∃ cs, dumpsFields ((k, v) :: fs) = '"' :: cs := by
  cases fs with
  | nil =>
    exact ⟨(k.data.flatMap escapeChar ++ ['"']) ++ ':' :: ' ' :: dumps v,
      by simp [dumpsFields, escapeString]⟩
  | cons f fs2 =>
    exact ⟨(k.data.flatMap escapeChar ++ ['"']) ++
      ':' :: ' ' :: dumps v ++ ',' :: ' ' :: dumpsFields (f :: fs2),
      by simp [dumpsFields, escapeString]⟩

mutual

theorem parseValue_dumps : ∀ (v : JValue) (fuel : Nat) (pre rest : List Char),
    (∀ c ∈ pre, isJsonWs c = true) →
    2 * (pre ++ dumps v ++ rest).length + 1 ≤ fuel →
    headIsDigit rest = false →
    parseValue fuel (pre ++ dumps v ++ rest) = some (v, rest)
  | JValue.jstr str, fuel, pre, rest => by
    intro hpre hfuel hrest
    cases fuel with
    | zero => omega
    | succ f =>
      rw [parseValue, List.append_assoc, skipWs_drop_ws pre _ hpre]
      rw [show dumps (JValue.jstr str) ++ rest =
        '"' :: (str.data.flatMap escapeChar ++ ('"' :: rest)) by
          simp [dumps, escapeString]]
      rw [skipWs_cons_of_not _ _ (by decide)]
      simp only [if_pos rfl, if_true, ite_true]
      rw [parseStringBody_escape str.data f rest (by
        have hlen : (dumps (JValue.jstr str)).length =
            (str.data.flatMap escapeChar).length + 2 := by
          simp [dumps, escapeString]
        simp only [List.length_append] at hfuel
        omega)]
      simp [mk_data]
  | JValue.jint n, fuel, pre, rest => by
    intro hpre hfuel hrest
    cases fuel with
    | zero => omega
    | succ f =>
      obtain ⟨c, cs, hform, hstart⟩ := intChars_shape n
      have hstart5 : c = '"' ∨ c = '[' ∨ c = '{' ∨ c = '-' ∨ c.isDigit = true := by tauto
      obtain ⟨hws, -, -, -, -⟩ := starter_facts hstart5
      have hne1 : ¬c = '"' := by
        rcases hstart with h | h
        · subst h; decide
        · exact (isDigit_ne c h).2.2.2.1
      have hne2 : ¬c = '[' := by
        rcases hstart with h | h
        · subst h; decide
        · exact (isDigit_ne c h).2.2.2.2.1
      have hne3 : ¬c = '{' := by
        rcases hstart with h | h
        · subst h; decide
        · exact (isDigit_ne c h).2.2.2.2.2.1
      rw [parseValue, List.append_assoc, skipWs_drop_ws pre _ hpre]
      rw [show dumps (JValue.jint n) ++ rest = c :: (cs ++ rest) by
        rw [show dumps (JValue.jint n) = intChars n by simp [dumps], hform]
        simp]
      rw [skipWs_cons_of_not _ _ hws]
      simp only [if_neg hne1, if_neg hne2, if_neg hne3]
      rw [show c :: (cs ++ rest) = (c :: cs) ++ rest from rfl, ← hform,
        parseIntNum_intChars n rest hrest]
      rfl
  | JValue.jarr [], fuel, pre, rest => by
    intro hpre hfuel hrest
    cases fuel with
    | zero => omega
    | succ f =>
      rw [parseValue, List.append_assoc, skipWs_drop_ws pre _ hpre]
      rw [show dumps (JValue.jarr []) ++ rest = '[' :: (']' :: rest) by
        simp [dumps, dumpsElems]]
      rw [skipWs_cons_of_not _ _ (by decide)]
      simp only [if_pos rfl, if_true, ite_true]
      rw [if_neg (by decide)]
      rw [skipWs_cons_of_not _ _ (by decide)]
      simp only [List.head?_cons, List.tail_cons]
      rw [if_pos trivial]
      try rfl
  | JValue.jarr (x :: xs), fuel, pre, rest => by
    intro hpre hfuel hrest
    cases fuel with
    | zero => omega
    | succ f =>
      obtain ⟨c, cs, hform, hstart⟩ := dumpsElems_shape x xs
      obtain ⟨hws, hnr, -, -, -⟩ := starter_facts hstart
      rw [parseValue, List.append_assoc, skipWs_drop_ws pre _ hpre]
      rw [show dumps (JValue.jarr (x :: xs)) ++ rest =
        '[' :: (dumpsElems (x :: xs) ++ [']'] ++ rest) by simp [dumps]]
      rw [skipWs_cons_of_not _ _ (by decide)]
      simp only [if_pos rfl, if_true, ite_true]
      rw [if_neg (by decide)]
      rw [show dumpsElems (x :: xs) ++ [']'] ++ rest = c :: (cs ++ ']' :: rest) by
        rw [hform]; simp]
      rw [skipWs_cons_of_not _ _ hws]
      simp only [List.head?_cons]
      rw [if_neg (by simp [hnr])]
      rw [show c :: (cs ++ ']' :: rest) = dumpsElems (x :: xs) ++ ']' :: rest by
        rw [hform]; simp]
      have he := parseElems_dumps (x :: xs) (by simp) f [] rest (by simp) (by
        have hlen : (dumps (JValue.jarr (x :: xs))).length =
            (dumpsElems (x :: xs)).length + 2 := by simp [dumps]
        simp only [List.nil_append, List.length_append, List.length_cons,
          List.length_nil] at hfuel ⊢
        omega)
      rw [List.nil_append] at he
      rw [he]
      rfl
  | JValue.jobj [], fuel, pre, rest => by
    intro hpre hfuel hrest
    cases fuel with
    | zero => omega
    | succ f =>
      rw [parseValue, List.append_assoc, skipWs_drop_ws pre _ hpre]
      rw [show dumps (JValue.jobj []) ++ rest = '{' :: ('}' :: rest) by
        simp [dumps, dumpsFields]]
      rw [skipWs_cons_of_not _ _ (by decide)]
      simp only [if_pos rfl, if_true, ite_true]
      rw [if_neg (by decide), if_neg (by decide)]
      rw [skipWs_cons_of_not _ _ (by decide)]
      simp only [List.head?_cons, List.tail_cons]
      rw [if_pos trivial]
      try rfl
  | JValue.jobj ((k, v) :: fs), fuel, pre, rest => by
    intro hpre hfuel hrest
    cases fuel with
    | zero => omega
    | succ f =>
      obtain ⟨cs, hform⟩ := dumpsFields_shape k v fs
      rw [parseValue, List.append_assoc, skipWs_drop_ws pre _ hpre]
      rw [show dumps (JValue.jobj ((k, v) :: fs)) ++ rest =
        '{' :: (dumpsFields ((k, v) :: fs) ++ ['}'] ++ rest) by simp [dumps]]
      rw [skipWs_cons_of_not _ _ (by decide)]
      simp only [if_pos rfl, if_true, ite_true]
      rw [if_neg (by decide), if_neg (by decide)]
      rw [show dumpsFields ((k, v) :: fs) ++ ['}'] ++ rest = '"' :: (cs ++ '}' :: rest) by
        rw [hform]; simp]
      rw [skipWs_cons_of_not _ _ (by decide)]
      simp only [List.head?_cons]
      rw [if_neg (by decide)]
      rw [show '"' :: (cs ++ '}' :: rest) = dumpsFields ((k, v) :: fs) ++ '}' :: rest by
        rw [hform]; simp]
      have he := parseMembers_dumps ((k, v) :: fs) (by simp) f [] rest (by simp) (by
        have hlen : (dumps (JValue.jobj ((k, v) :: fs))).length =
            (dumpsFields ((k, v) :: fs)).length + 2 := by simp [dumps]
        simp only [List.nil_append, List.length_append, List.length_cons,
          List.length_nil] at hfuel ⊢
        omega)
      rw [List.nil_append] at he
      rw [he]
      rfl
termination_by v => sizeOf v

theorem parseElems_dumps : ∀ (xs : List JValue), xs ≠ [] →
    ∀ (fuel : Nat) (pre rest : List Char),
    (∀ c ∈ pre, isJsonWs c = true) →
    2 * (pre ++ dumpsElems xs ++ ']' :: rest).length + 2 ≤ fuel →
    parseElems fuel (pre ++ dumpsElems xs ++ ']' :: rest) = some (xs, rest)
  | [], hne => absurd rfl hne
  | [x], _ => by
    intro fuel pre rest hpre hfuel
    cases fuel with
    | zero => omega
    | succ f =>
      rw [parseElems, show pre ++ dumpsElems [x] ++ ']' :: rest =
        pre ++ dumps x ++ ']' :: rest by simp [dumpsElems]]
      rw [parseValue_dumps x f pre (']' :: rest) hpre (by
        have hlen : dumpsElems [x] = dumps x := by simp [dumpsElems]
        rw [← hlen]
        simp only [List.length_append, List.length_cons, List.length_nil] at hfuel ⊢
        omega) rfl]
      have hsw : skipWs (']' :: rest) = ']' :: rest := skipWs_cons_of_not _ _ (by decide)
      simp only [hsw, List.head?_cons, List.tail_cons]
      rw [if_neg (by decide)]
      rw [if_pos trivial]
      try rfl
  | x :: y :: ys, _ => by
    intro fuel pre rest hpre hfuel
    cases fuel with
    | zero => omega
    | succ f =>
      have hsplit : pre ++ dumpsElems (x :: y :: ys) ++ ']' :: rest =
          pre ++ dumps x ++ (',' :: ' ' :: (dumpsElems (y :: ys) ++ ']' :: rest)) := by
        rw [show dumpsElems (x :: y :: ys) =
          dumps x ++ ',' :: ' ' :: dumpsElems (y :: ys) by simp [dumpsElems]]
        simp
      rw [parseElems, hsplit]
      rw [parseValue_dumps x f pre (',' :: ' ' :: (dumpsElems (y :: ys) ++ ']' :: rest))
        hpre (by
          rw [hsplit] at hfuel
          simp only [List.length_append, List.length_cons, List.length_nil] at hfuel ⊢
          omega) rfl]
      have hsw : skipWs (',' :: ' ' :: (dumpsElems (y :: ys) ++ ']' :: rest)) =
          ',' :: ' ' :: (dumpsElems (y :: ys) ++ ']' :: rest) :=
        skipWs_cons_of_not _ _ (by decide)
      simp only [hsw, List.head?_cons, List.tail_cons]
      rw [if_pos trivial]
      have he := parseElems_dumps (y :: ys) (by simp) f [' '] rest
        (by intro c hc; simp at hc; subst hc; decide) (by
          rw [hsplit] at hfuel
          have := dumps_length_pos x
          simp only [List.length_append, List.length_cons, List.length_nil] at hfuel ⊢
          omega)
      rw [show (' ' :: (dumpsElems (y :: ys) ++ ']' :: rest)) =
        [' '] ++ dumpsElems (y :: ys) ++ ']' :: rest by simp] at *
      rw [he]
      rfl
termination_by xs => sizeOf xs

theorem parseMembers_dumps : ∀ (fs : List (String × JValue)), fs ≠ [] →
    ∀ (fuel : Nat) (pre rest : List Char),
    (∀ c ∈ pre, isJsonWs c = true) →
    2 * (pre ++ dumpsFields fs ++ '}' :: rest).length + 2 ≤ fuel →
    parseMembers fuel (pre ++ dumpsFields fs ++ '}' :: rest) = some (fs, rest)
  | [], hne => absurd rfl hne
  | [(k, v)], _ => by
    intro fuel pre rest hpre hfuel
    cases fuel with
    | zero => omega
    | succ f =>
      have hsplit : pre ++ dumpsFields [(k, v)] ++ '}' :: rest =
          pre ++ ('"' :: (k.data.flatMap escapeChar ++
            ('"' :: (':' :: ' ' :: (dumps v ++ '}' :: rest))))) := by
        rw [show dumpsFields [(k, v)] =
          ('"' :: (k.data.flatMap escapeChar ++ ['"'])) ++ ':' :: ' ' :: dumps v by
            simp [dumpsFields, escapeString]]
        simp
      rw [parseMembers, hsplit, skipWs_drop_ws pre _ hpre,
        skipWs_cons_of_not _ _ (by decide)]
      simp only [if_pos rfl, if_true, ite_true]
      rw [parseStringBody_escape k.data f _ (by
        rw [hsplit] at hfuel
        simp only [List.length_append, List.length_cons, List.length_nil] at hfuel ⊢
        omega)]
      have hsw : skipWs (':' :: ' ' :: (dumps v ++ '}' :: rest)) =
          ':' :: ' ' :: (dumps v ++ '}' :: rest) :=
        skipWs_cons_of_not _ _ (by decide)
      simp only [hsw, List.head?_cons, List.tail_cons]
      rw [if_pos trivial]
      rw [show (' ' :: (dumps v ++ '}' :: rest)) =
        [' '] ++ dumps v ++ '}' :: rest by simp]
      rw [parseValue_dumps v f [' '] ('}' :: rest)
        (by intro c hc; simp at hc; subst hc; decide) (by
          rw [hsplit] at hfuel
          simp only [List.length_append, List.length_cons, List.length_nil] at hfuel ⊢
          omega) rfl]
      have hsw2 : skipWs ('}' :: rest) = '}' :: rest := skipWs_cons_of_not _ _ (by decide)
      simp only [hsw2, List.head?_cons, List.tail_cons]
      rw [if_neg (by decide)]
      rw [if_pos trivial]
      try simp [mk_data]
  | (k, v) :: kv2 :: fs2, _ => by
    intro fuel pre rest hpre hfuel
    cases fuel with
    | zero => omega
    | succ f =>
      have hsplit : pre ++ dumpsFields ((k, v) :: kv2 :: fs2) ++ '}' :: rest =
          pre ++ ('"' :: (k.data.flatMap escapeChar ++
            ('"' :: (':' :: ' ' :: (dumps v ++
              (',' :: ' ' :: (dumpsFields (kv2 :: fs2) ++ '}' :: rest))))))) := by
        rw [show dumpsFields ((k, v) :: kv2 :: fs2) =
          ('"' :: (k.data.flatMap escapeChar ++ ['"'])) ++
            ':' :: ' ' :: dumps v ++ ',' :: ' ' :: dumpsFields (kv2 :: fs2) by
            simp [dumpsFields, escapeString]]
        simp
      rw [parseMembers, hsplit, skipWs_drop_ws pre _ hpre,
        skipWs_cons_of_not _ _ (by decide)]
      simp only [if_pos rfl, if_true, ite_true]
      rw [parseStringBody_escape k.data f _ (by
        rw [hsplit] at hfuel
        simp only [List.length_append, List.length_cons, List.length_nil] at hfuel ⊢
        omega)]
      have hsw : skipWs (':' :: ' ' :: (dumps v ++
          (',' :: ' ' :: (dumpsFields (kv2 :: fs2) ++ '}' :: rest)))) =
          ':' :: ' ' :: (dumps v ++
            (',' :: ' ' :: (dumpsFields (kv2 :: fs2) ++ '}' :: rest))) :=
        skipWs_cons_of_not _ _ (by decide)
      simp only [hsw, List.head?_cons, List.tail_cons]
      rw [if_pos trivial]
      rw [show (' ' :: (dumps v ++ (',' :: ' ' :: (dumpsFields (kv2 :: fs2) ++
        '}' :: rest)))) = [' '] ++ dumps v ++
          (',' :: ' ' :: (dumpsFields (kv2 :: fs2) ++ '}' :: rest)) by simp]
      rw [parseValue_dumps v f [' ']
        (',' :: ' ' :: (dumpsFields (kv2 :: fs2) ++ '}' :: rest))
        (by intro c hc; simp at hc; subst hc; decide) (by
          rw [hsplit] at hfuel
          simp only [List.length_append, List.length_cons, List.length_nil] at hfuel ⊢
          omega) rfl]
      have hsw2 : skipWs (',' :: ' ' :: (dumpsFields (kv2 :: fs2) ++ '}' :: rest)) =
          ',' :: ' ' :: (dumpsFields (kv2 :: fs2) ++ '}' :: rest) :=
        skipWs_cons_of_not _ _ (by decide)
      simp only [hsw2, List.head?_cons, List.tail_cons]
      rw [if_pos trivial]
      have he := parseMembers_dumps (kv2 :: fs2) (by simp) f [' '] rest
        (by intro c hc; simp at hc; subst hc; decide) (by
          rw [hsplit] at hfuel
          have := dumps_length_pos v
          simp only [List.length_append, List.length_cons, List.length_nil] at hfuel ⊢
          omega)
      rw [show (' ' :: (dumpsFields (kv2 :: fs2) ++ '}' :: rest)) =
        [' '] ++ dumpsFields (kv2 :: fs2) ++ '}' :: rest by simp] at *
      rw [he]
      simp [mk_data]
termination_by fs => sizeOf fs

end

theorem loads_dumps (v : JValue) : loads (dumps v ++ ['\n']) = some v := by
  unfold loads
  have h := parseValue_dumps v (2 * (dumps v ++ ['\n']).length + 1) [] ['\n']
    (by simp) (by simp) rfl
  rw [List.nil_append] at h
  rw [h]
  rfl

theorem hexDigitChar_ne_newline (k : Nat) (hk : k < 16) : hexDigitChar k ≠ '\n' := by
  interval_cases k <;> decide

theorem escapeChar_no_newline (c : Char) : '\n' ∉ escapeChar c := by
  unfold escapeChar
  split_ifs with h1 h2 h3 h4 h5 h6 h7 h8
  · subst h1; decide
  · subst h2; decide
  · subst h3; decide
  · subst h4; decide
  · subst h5; decide
  · subst h6; decide
  · subst h7; decide
  · unfold uEscape
    split_ifs with h9
    · intro hmem
      simp only [hex4, List.mem_cons, List.not_mem_nil, or_false] at hmem
      rcases hmem with h | h | h | h | h | h <;>
        first
        | exact absurd h.symm (by decide)
        | exact absurd h.symm (hexDigitChar_ne_newline _ (Nat.mod_lt _ (by omega)))
    · intro hmem
      simp only [hex4, List.cons_append, List.nil_append, List.mem_cons,
        List.mem_append, List.not_mem_nil, or_false] at hmem
      rcases hmem with h | h | h | h | h | h | h | h | h | h | h | h <;>
        first
        | exact absurd h.symm (by decide)
        | exact absurd h.symm (hexDigitChar_ne_newline _ (Nat.mod_lt _ (by omega)))
  · intro hmem
    simp only [List.mem_cons, List.not_mem_nil, or_false] at hmem
    subst hmem
    exact h8 (Or.inl (by decide))

theorem natChars_no_newline (m : Nat) : '\n' ∉ natChars m := by
  induction m using Nat.strong_induction_on with
  | _ m ih =>
    by_cases hm : m < 10
    · rw [natChars, if_pos hm]
      intro hmem
      simp only [List.mem_cons, List.not_mem_nil, or_false] at hmem
      obtain ⟨-, htn, -⟩ := digitChar_facts m hm
      have h10 : ('\n').toNat = 48 + m := by rw [hmem, htn]
      rw [show ('\n').toNat = 10 by decide] at h10
      omega
    · rw [natChars, if_neg hm]
      intro hmem
      rw [List.mem_append] at hmem
      rcases hmem with h | h
      · exact ih (m / 10) (Nat.div_lt_self (by omega) (by omega)) h
      · simp only [List.mem_cons, List.not_mem_nil, or_false] at h
        obtain ⟨-, htn, -⟩ := digitChar_facts (m % 10) (Nat.mod_lt _ (by omega))
        have h10 : ('\n').toNat = 48 + m % 10 := by rw [h, htn]
        rw [show ('\n').toNat = 10 by decide] at h10
        omega

theorem intChars_no_newline (n : Int) : '\n' ∉ intChars n := by
  unfold intChars
  split_ifs
  · intro hmem
    rcases List.mem_cons.mp hmem with h | h
    · exact absurd h (by decide)
    · exact natChars_no_newline _ h
  · exact natChars_no_newline _

theorem not_mem_append {α} {a : α} {l1 l2 : List α} (h1 : a ∉ l1) (h2 : a ∉ l2) :
    a ∉ l1 ++ l2 := by
  simp only [List.mem_append]
  tauto

theorem not_mem_cons {α} {a b : α} {l : List α} (h1 : a ≠ b) (h2 : a ∉ l) :
    a ∉ b :: l := by
  simp only [List.mem_cons]
  tauto

theorem not_mem_flatMap_escape (s : List Char) : '\n' ∉ s.flatMap escapeChar := fun h => by
  obtain ⟨c, -, hc⟩ := List.mem_flatMap.mp h
  exact escapeChar_no_newline c hc

mutual

theorem dumps_no_newline : ∀ (v : JValue), '\n' ∉ dumps v
  | JValue.jstr s => by
    rw [show dumps (JValue.jstr s) = '"' :: (s.data.flatMap escapeChar ++ ['"']) by
      simp [dumps, escapeString]]
    intro hmem
    rcases List.mem_cons.mp hmem with h | h
    · exact absurd h (by decide)
    · rcases List.mem_append.mp h with h | h
      · obtain ⟨c, -, hc⟩ := List.mem_flatMap.mp h
        exact escapeChar_no_newline c hc
      · simp only [List.mem_cons, List.not_mem_nil, or_false] at h
        exact absurd h (by decide)
  | JValue.jint n => by
    rw [show dumps (JValue.jint n) = intChars n by simp [dumps]]
    exact intChars_no_newline n
  | JValue.jarr xs => by
    rw [show dumps (JValue.jarr xs) = '[' :: (dumpsElems xs ++ [']']) by simp [dumps]]
    intro hmem
    rcases List.mem_cons.mp hmem with h | h
    · exact absurd h (by decide)
    · rcases List.mem_append.mp h with h | h
      · exact dumpsElems_no_newline xs h
      · simp only [List.mem_cons, List.not_mem_nil, or_false] at h
        exact absurd h (by decide)
  | JValue.jobj fs => by
    rw [show dumps (JValue.jobj fs) = '{' :: (dumpsFields fs ++ ['}']) by simp [dumps]]
    intro hmem
    rcases List.mem_cons.mp hmem with h | h
    · exact absurd h (by decide)
    · rcases List.mem_append.mp h with h | h
      · exact dumpsFields_no_newline fs h
      · simp only [List.mem_cons, List.not_mem_nil, or_false] at h
        exact absurd h (by decide)
termination_by v => sizeOf v

theorem dumpsElems_no_newline : ∀ (xs : List JValue), '\n' ∉ dumpsElems xs
  | [] => by simp [dumpsElems]
  | [x] => by
    rw [show dumpsElems [x] = dumps x by simp [dumpsElems]]
    exact dumps_no_newline x
  | x :: y :: ys => by
    rw [show dumpsElems (x :: y :: ys) = dumps x ++ ',' :: ' ' :: dumpsElems (y :: ys) by
      simp [dumpsElems]]
    intro hmem
    rcases List.mem_append.mp hmem with h | h
    · exact dumps_no_newline x h
    · rcases List.mem_cons.mp h with h | h
      · exact absurd h (by decide)
      · rcases List.mem_cons.mp h with h | h
        · exact absurd h (by decide)
        · exact dumpsElems_no_newline (y :: ys) h
termination_by xs => sizeOf xs

theorem dumpsFields_no_newline : ∀ (fs : List (String × JValue)), '\n' ∉ dumpsFields fs
  | [] => by simp [dumpsFields]
  | [(k, v)] => by
    rw [show dumpsFields [(k, v)] =
      ('"' :: (k.data.flatMap escapeChar ++ ['"'])) ++ ':' :: ' ' :: dumps v by
        simp [dumpsFields, escapeString]]
    exact not_mem_append
      (not_mem_cons (by decide)
        (not_mem_append (not_mem_flatMap_escape k.data)
          (not_mem_cons (by decide) (List.not_mem_nil _))))
      (not_mem_cons (by decide) (not_mem_cons (by decide) (dumps_no_newline v)))
  | (k, v) :: kv2 :: fs2 => by
    rw [show dumpsFields ((k, v) :: kv2 :: fs2) =
      ('"' :: (k.data.flatMap escapeChar ++ ['"'])) ++
        ':' :: ' ' :: (dumps v ++ ',' :: ' ' :: dumpsFields (kv2 :: fs2)) by
        simp [dumpsFields, escapeString]]
    exact not_mem_append
      (not_mem_cons (by decide)
        (not_mem_append (not_mem_flatMap_escape k.data)
          (not_mem_cons (by decide) (List.not_mem_nil _))))
      (not_mem_cons (by decide) (not_mem_cons (by decide)
        (not_mem_append (dumps_no_newline v)
          (not_mem_cons (by decide) (not_mem_cons (by decide)
            (dumpsFields_no_newline (kv2 :: fs2)))))))
termination_by fs => sizeOf fs

end

theorem splitLinesAux_line (l : List Char) : ∀ (acc rest : List Char), '\n' ∉ l →
    splitLinesAux acc (l ++ '\n' :: rest) =
      (acc.reverse ++ (l ++ ['\n'])) :: splitLinesAux [] rest := by
  induction l with
  | nil =>
    intro acc rest hl
    simp [splitLinesAux]
  | cons c l ih =>
    intro acc rest hl
    have hc : ¬c = '\n' := fun hcc => hl (by simp [hcc])
    rw [List.cons_append, splitLinesAux, if_neg hc,
      ih (c :: acc) rest (fun hm => hl (by simp [hm]))]
    simp

theorem splitLines_jsonl (lines : List (List Char)) (h : ∀ l ∈ lines, '\n' ∉ l) :
    splitLines (lines.flatMap fun l => l ++ ['\n']) = lines.map fun l => l ++ ['\n'] := by
  induction lines with
  | nil => rfl
  | cons l ls ih =>
    rw [List.flatMap_cons, List.map_cons]
    rw [show (l ++ ['\n']) ++ (ls.flatMap fun l => l ++ ['\n']) =
      l ++ '\n' :: (ls.flatMap fun l => l ++ ['\n']) by simp]
    unfold splitLines
    rw [splitLinesAux_line l [] _ (h l (by simp))]
    simp only [List.reverse_nil, List.nil_append]
    rw [show splitLinesAux [] (ls.flatMap fun l => l ++ ['\n']) =
      splitLines (ls.flatMap fun l => l ++ ['\n']) from rfl]
    rw [ih fun x hx => h x (by simp [hx])]

theorem load_fold (lines : List (List Char)) : ∀ (acc : List JValue × Nat),
    lines.foldl
      (fun acc line =>
        match loads line with
        | some v => (acc.1 ++ [v], acc.2)
        | none => (acc.1, acc.2 + 1)) acc =
      (acc.1 ++ lines.filterMap loads,
        acc.2 + lines.countP fun l => (loads l).isNone) := by
  induction lines with
  | nil => intro acc; simp
  | cons l ls ih =>
    intro acc
    rw [List.foldl_cons]
    cases hl : loads l with
    | some v =>
      simp only [hl]
      rw [ih]
      simp [List.filterMap_cons, hl, List.countP_cons]
    | none =>
      simp only [hl]
      rw [ih]
      simp only [List.filterMap_cons, hl, List.countP_cons, Prod.mk.injEq]
      refine ⟨trivial, by simp; omega⟩

theorem filterMap_loads_length (lines : List (List Char)) :
    (lines.filterMap loads).length = lines.countP fun l => (loads l).isSome := by
  induction lines with
  | nil => rfl
  | cons l ls ih =>
    rw [List.filterMap_cons, List.countP_cons]
    cases hl : loads l <;> simp [hl, ih]

theorem load_jsonl_roundtrip (vs : List JValue) :
    load_jsonl (jsonlContent vs) = (vs, 0) := by
  unfold load_jsonl jsonlContent
  rw [show (vs.flatMap fun v => dumps v ++ ['\n']) =
    (vs.map dumps).flatMap fun l => l ++ ['\n'] by
      simp [List.flatMap_map]]
  rw [splitLines_jsonl (vs.map dumps) (by
    intro l hl
    obtain ⟨v, -, hv⟩ := List.mem_map.mp hl
    rw [← hv]
    exact dumps_no_newline v)]
  rw [show ((vs.map dumps).map fun l => l ++ ['\n']) =
    vs.map fun v => dumps v ++ ['\n'] by simp]
  rw [load_fold]
  simp only [List.nil_append, Nat.zero_add]
  rw [Prod.mk.injEq]
  constructor
  · induction vs with
    | nil => rfl
    | cons v vs ih =>
      rw [List.map_cons, List.filterMap_cons, loads_dumps v]
      simp only [List.cons.injEq, true_and]
      exact ih
  · induction vs with
    | nil => rfl
    | cons v vs ih =>
      rw [List.map_cons, List.countP_cons]
      simp [loads_dumps v, ih]

/-! ## Theorems about the writer, the analyzer loader and the run trace -/

/-- C8: serializing any list of N post records one JSON object per line
and re-parsing the resulting line-delimited file with the analyzer's
loader yields exactly N parsed objects equal to the serialized originals
(every field value preserved), with no skipped lines. -/
theorem jsonl_roundtrip (posts : List PostRecord) :
    load_jsonl (jsonlContent (posts.map postToJson)) = (posts.map postToJson, 0) ∧
    (load_jsonl (jsonlContent (posts.map postToJson))).1.length = posts.length := by
  refine ⟨load_jsonl_roundtrip _, ?_⟩
  rw [load_jsonl_roundtrip]
  simp

/-- C9: on a file whose lines comprise K that parse as JSON and exactly
one that does not, the analyzer's loader returns exactly K parsed records
and logs exactly one skip; the malformed line is never fatal. -/
theorem loader_skips_malformed (content : List Char) (K : Nat)
    (hK : ((splitLines content).countP fun l => (loads l).isSome) = K)
    (hbad : ((splitLines content).countP fun l => (loads l).isNone) = 1) :
    (load_jsonl content).1.length = K ∧ (load_jsonl content).2 = 1 := by
  unfold load_jsonl
  rw [load_fold]
  simp only [List.nil_append, Nat.zero_add]
  rw [filterMap_loads_length, hK, hbad]
  exact ⟨rfl, rfl⟩

/-- C9, witness: a two-line file with one valid and one malformed line. -/
theorem loader_skips_malformed_witness :
    (((splitLines ("[]\n@\n").data).countP fun l => (loads l).isSome) = 1 ∧
      ((splitLines ("[]\n@\n").data).countP fun l => (loads l).isNone) = 1) ∧
    ((load_jsonl ("[]\n@\n").data).1.length = 1 ∧ (load_jsonl ("[]\n@\n").data).2 = 1) :=
  ⟨⟨by decide, by decide⟩,
    loader_skips_malformed ("[]\n@\n").data 1 (by decide) (by decide)⟩

/-- C4, counterexample: a run whose collections are both empty performs no
file write at all — neither output file is opened, so neither is
overwritten (the previous run's files survive untouched). -/
theorem empty_run_writes_nothing :
    writePhase (scrape_subreddit []).1 (scrape_subreddit []).2 = [] := rfl

/-- C4, amended: each output file is fully overwritten (opened in mode
`"w"` and written with the complete serialized collection) exactly on runs
where its collection is non-empty; a run with an empty collection leaves
that file untouched from the previous run. -/
theorem files_overwritten_iff_nonempty (posts : List PostRecord)
    (comments : List CommentRecord) :
    List.lookup POSTS_FILE (writePhase posts comments) =
      (if posts.isEmpty then none else some (jsonlContent (posts.map postToJson))) ∧
    List.lookup COMMENTS_FILE (writePhase posts comments) =
      (if comments.isEmpty then none else some (jsonlContent (comments.map commentToJson))) := by
  unfold writePhase
  by_cases hp : posts.isEmpty <;> by_cases hc : comments.isEmpty <;>
    simp [hp, hc, POSTS_FILE, COMMENTS_FILE, List.lookup]

theorem isWrite_processed (i : String) : (RunEvent.processedPost i).isWrite = false := rfl

theorem isWrite_wrote (n : String) (c : List Char) :
    (RunEvent.wroteFile n c).isWrite = true := rfl

/-- The processing-events part of a trace contains no write event. -/
theorem filter_isWrite_processed (L : List (PostEntry × FetchResult)) :
    (L.map fun pe => RunEvent.processedPost pe.1.id).filter (fun e => e.isWrite) = [] := by
  induction L with
  | nil => rfl
  | cons pe rest ih => simp [isWrite_processed, ih]

/-- The write-phase events are all write events. -/
theorem filter_isWrite_writes (ws : List (String × List Char)) :
    (ws.map fun w => RunEvent.wroteFile w.1 w.2).filter (fun e => e.isWrite) =
      ws.map fun w => RunEvent.wroteFile w.1 w.2 := by
  induction ws with
  | nil => rfl
  | cons w rest ih => simp [isWrite_wrote, ih]

/-- Processing events contribute nothing to a write count. -/
theorem countWrites_processed (name : String) (L : List (PostEntry × FetchResult))
    (t : List RunEvent) :
    countWrites name ((L.map fun pe => RunEvent.processedPost pe.1.id) ++ t) =
      countWrites name t := by
  unfold countWrites
  rw [List.countP_append]
  have : (L.map fun pe => RunEvent.processedPost pe.1.id).countP
      (fun e => match e with
        | RunEvent.wroteFile n _ => n == name
        | RunEvent.processedPost _ => false) = 0 := by
    apply List.countP_eq_zero.mpr
    intro e he
    obtain ⟨pe, -, hpe⟩ := List.mem_map.mp he
    rw [← hpe]
    simp
  rw [this]
  omega

/-- The write phase opens each of the two files at most once. -/
theorem countWrites_writePhase (posts : List PostRecord) (comments : List CommentRecord) :
    countWrites POSTS_FILE
        ((writePhase posts comments).map fun w => RunEvent.wroteFile w.1 w.2) ≤ 1 ∧
    countWrites COMMENTS_FILE
        ((writePhase posts comments).map fun w => RunEvent.wroteFile w.1 w.2) ≤ 1 := by
  unfold writePhase countWrites
  by_cases hp : posts.isEmpty <;> by_cases hc : comments.isEmpty <;>
    simp [hp, hc, POSTS_FILE, COMMENTS_FILE]

/-- C6: in every run trace, all writes happen at the very end (the trace is
the processing of every listed post followed by only-write events), each of
the two output files is written at most once, and a run whose post listing
raises performs no write at all (both files are left untouched). -/
theorem writes_last_once_and_none_on_fatal (L : List (PostEntry × FetchResult))
    (listingError : Bool) :
    scrapeTrace L listingError =
      (L.map fun pe => RunEvent.processedPost pe.1.id) ++
        (scrapeTrace L listingError).filter (fun e => e.isWrite) ∧
    countWrites POSTS_FILE (scrapeTrace L listingError) ≤ 1 ∧
    countWrites COMMENTS_FILE (scrapeTrace L listingError) ≤ 1 ∧
    scrapeTrace L true = L.map fun pe => RunEvent.processedPost pe.1.id := by
  have htrue : scrapeTrace L true = L.map fun pe => RunEvent.processedPost pe.1.id := by
    unfold scrapeTrace
    simp
  cases listingError with
  | true =>
    refine ⟨?_, ?_, ?_, htrue⟩
    · rw [htrue, filter_isWrite_processed]
      simp
    · rw [htrue, ← List.append_nil (L.map fun pe => RunEvent.processedPost pe.1.id),
        countWrites_processed]
      simp [countWrites]
    · rw [htrue, ← List.append_nil (L.map fun pe => RunEvent.processedPost pe.1.id),
        countWrites_processed]
      simp [countWrites]
  | false =>
    have hfalse : scrapeTrace L false =
        (L.map fun pe => RunEvent.processedPost pe.1.id) ++
          ((writePhase (scrape_subreddit L).1 (scrape_subreddit L).2).map
            fun w => RunEvent.wroteFile w.1 w.2) := by
      unfold scrapeTrace
      simp
    refine ⟨?_, ?_, ?_, htrue⟩
    · rw [hfalse, List.filter_append, filter_isWrite_processed, List.nil_append,
        filter_isWrite_writes]
    · rw [hfalse, countWrites_processed]
      exact (countWrites_writePhase _ _).1
    · rw [hfalse, countWrites_processed]
      exact (countWrites_writePhase _ _).2
